import Mathlib

/-!
Verification of the move-tree model and navigation engine of the JekyllChess
interactive PGN viewer/editor (`assets/js/app.js` and
`assets/js/app-widget-buttons.js`).

Nodes are stored in an arena (a list indexed by natural numbers); `parent`,
`next` (the source's `mainlineNext`) and `vars` (the source's `variations`)
are arena indices, mirroring the object graph of the JavaScript source.
-/

namespace JekyllChess

/-- One move-tree node, mirroring `class Node` in `app.js`:
`id` (from the global counter `ID`), `san`, `parent`, `fen`, `next`,
`vars`, `comment`.  `san` is `none` exactly for the root. -/
structure Node where
  id      : Nat
  san     : Option String
  parent  : Option Nat
  fen     : String
  next    : Option Nat
  vars    : List Nat
  comment : String
deriving DecidableEq, Repr

/-- The mutable state of the viewer: the arena of nodes, the cursor
(an arena index), and the global id counter `ID`. -/
structure TreeState where
  nodes  : List Node
  cursor : Nat
  nextId : Nat
deriving DecidableEq, Repr

/-- Default node returned for an out-of-range arena access (never reached
from well-formed states; its `next` is `none` so loops stop on it). -/
def defaultNode : Node :=
  { id := 0, san := none, parent := none, fen := "", next := none,
    vars := [], comment := "" }

def getNode (s : TreeState) (i : Nat) : Node :=
  (s.nodes[i]?).getD defaultNode

def updNode (s : TreeState) (i : Nat) (f : Node → Node) : TreeState :=
  { s with nodes := s.nodes.set i (f (getNode s i)) }

/-- `chess.fen()` of the starting position (`START_FEN` in `app.js`). -/
def START_FEN : String :=
  "rnbqkbnr/pppppppp/8/8/8/8/PPPPPPPP/RNBQKBNR w KQkq - 0 1"

/-- `const root = new Node(null, null, START_FEN); let cursor = root;`
with the id counter `ID` starting at 1 and incremented by the creation. -/
def initState : TreeState :=
  { nodes := [{ id := 1, san := none, parent := none, fen := START_FEN,
                next := none, vars := [], comment := "" }],
    cursor := 0, nextId := 2 }

/-- `new Node(san, cursor, fen)`: the node built by `applyMove` when the
move is not a replay of the existing `next` (id drawn from the counter). -/
def newNodeFor (s : TreeState) (san fen : String) : Node :=
  { id := s.nextId, san := some san, parent := some s.cursor,
    fen := fen, next := none, vars := [], comment := "" }

/-- The state right after `new Node(...)` ran: the arena grew by the new
node and the id counter advanced. -/
def grown (s : TreeState) (san fen : String) : TreeState :=
  { s with
    nodes := s.nodes ++ [newNodeFor s san fen],
    nextId := s.nextId + 1 }

/-- `applyMove(san, fen, turnAfterMove)` from `app.js`:
if the cursor's `next` exists and carries the same `san`, reuse it;
otherwise create a new node and place it (promoting it to `next` and
demoting the old `next` into `vars` when `turnAfterMove === "w"`,
i.e. when Black just moved); finally `n.fen = fen; cursor = n`. -/
def applyMove (s : TreeState) (san fen turnAfter : String) : TreeState :=
  let c := getNode s s.cursor
  let picked : Nat × TreeState :=
    match c.next with
    | some j =>
      if (getNode s j).san = some san then
        (j, s)
      else
        if turnAfter = "w" then
          (s.nodes.length, updNode (grown s san fen) s.cursor fun x =>
            { x with vars := x.vars ++ [j], next := some s.nodes.length })
        else
          (s.nodes.length, updNode (grown s san fen) s.cursor fun x =>
            { x with vars := x.vars ++ [s.nodes.length] })
    | none =>
        (s.nodes.length, updNode (grown s san fen) s.cursor fun x =>
          { x with next := some s.nodes.length })
  { updNode picked.2 picked.1 (fun x => { x with fen := fen }) with
    cursor := picked.1 }

/-- Clicking a rendered move span (`appendMove`'s `onclick`): the cursor
jumps to that node. -/
def gotoNode (s : TreeState) (i : Nat) : TreeState :=
  { s with cursor := i }

/-- `btnStart.onclick`: cursor back to the root. -/
def navStart (s : TreeState) : TreeState :=
  { s with cursor := 0 }

/-- The `while (n.next) n = n.next` walk of `btnEnd.onclick`, with enough
fuel to cover the arena (the chain is strictly index-increasing on
reachable states, so `s.nodes.length` steps always suffice). -/
def follow (s : TreeState) : Nat → Nat → Nat
  | 0, i => i
  | f + 1, i =>
    match (getNode s i).next with
    | none => i
    | some j => follow s f j

/-- `btnEnd.onclick`: follow `next` links from the root until null. -/
def navEnd (s : TreeState) : TreeState :=
  { s with cursor := follow s s.nodes.length 0 }

/-- `btnPrev.onclick`: `if (!cursor.parent) return; cursor = cursor.parent`. -/
def navPrev (s : TreeState) : TreeState :=
  match (getNode s s.cursor).parent with
  | none => s
  | some p => { s with cursor := p }

/-- `btnNext.onclick`: `if (!cursor.next) return; cursor = cursor.next`. -/
def navNext (s : TreeState) : TreeState :=
  match (getNode s s.cursor).next with
  | none => s
  | some j => { s with cursor := j }

/-- JavaScript `String.prototype.trim`: strip leading and trailing
whitespace. -/
def strTrim (s : String) : String :=
  String.mk
    (((s.data.dropWhile Char.isWhitespace).reverse.dropWhile
      Char.isWhitespace).reverse)

/-- `btnCommentSave.onclick` from `app.js`: no-op at the root, else
`cursor.comment = commentEditor.value.trim()`. -/
def setCommentClick (s : TreeState) (t : String) : TreeState :=
  if s.cursor = 0 then s
  else updNode s s.cursor fun x => { x with comment := strTrim t }

/-- `isVariation` from `app-widget-buttons.js`:
`node.parent && node.parent.next !== node`. -/
def isVariation (s : TreeState) (i : Nat) : Bool :=
  match (getNode s i).parent with
  | none => false
  | some p => decide ((getNode s p).next ≠ some i)

/-- `btnPromote.onclick` from `app-widget-buttons.js`: on a variation
cursor node `n` with parent `p`, filter `n` out of `p.vars`, unshift the
old `p.next` (if any) onto `p.vars`, set `p.next = n`, cursor to `n`. -/
def promoteVariation (s : TreeState) : TreeState :=
  let n := s.cursor
  if isVariation s n then
    match (getNode s n).parent with
    | some p =>
      let s1 := updNode s p fun x =>
        let vs := x.vars.filter (fun v => v ≠ n)
        let vs2 := match x.next with
          | some j => j :: vs
          | none => vs
        { x with vars := vs2, next := some n }
      { s1 with cursor := n }
    | none => s
  else s

/-- `btnDelete.onclick` from `app-widget-buttons.js`: on a variation
cursor node `n` with parent `p`, filter `n` out of `p.vars`, cursor to `p`. -/
def deleteVariation (s : TreeState) : TreeState :=
  let n := s.cursor
  if isVariation s n then
    match (getNode s n).parent with
    | some p =>
      let s1 := updNode s p fun x =>
        { x with vars := x.vars.filter (fun v => v ≠ n) }
      { s1 with cursor := p }
    | none => s
  else s

/-! ## Move-list rendering (`render`, `renderSeq`, `renderVars`, `trim`) -/

/-- The figurine table `FIG` of `app.js` (keys K Q R B N). -/
def figChar (c : Char) : Option String :=
  if c = 'K' then some "♔" else if c = 'Q' then some "♕"
  else if c = 'R' then some "♖" else if c = 'B' then some "♗"
  else if c = 'N' then some "♘" else none

/-- The character class of the promotion regex `/=([QRBN])/` (no K). -/
def promoFig (c : Char) : Option String :=
  if c = 'Q' then some "♕" else if c = 'R' then some "♖"
  else if c = 'B' then some "♗" else if c = 'N' then some "♘" else none

/-- `s.replace(/^[KQRBN]/, ...)`: replace a leading piece letter. -/
def firstRepl : List Char → List Char
  | [] => []
  | c :: rest =>
    match figChar c with
    | some f => f.data ++ rest
    | none => c :: rest

/-- `s.replace(/=([QRBN])/, ...)`: replace the first `=P` promotion. -/
def promoRepl : List Char → List Char
  | [] => []
  | c :: rest =>
    if c = '=' then
      match rest with
      | [] => [c]
      | d :: rest2 =>
        match promoFig d with
        | some f => c :: (f.data ++ rest2)
        | none => c :: promoRepl rest
    else c :: promoRepl rest

/-- `figSAN` from `app.js`. -/
def figSAN (s : String) : String :=
  String.mk (promoRepl (firstRepl s.data))

/-- A DOM child appended to a move-list container by `render`:
a bare text node, a `span.move` (with the node it is wired to by
`onclick`, whether it carries the `active` class, and its text), a
`span.comment`, or a `span.variation` with its own children. -/
inductive Item where
  | text (s : String)
  | move (id : Nat) (active : Bool) (txt : String)
  | comm (txt : String)
  | varSpan (children : List Item)
deriving Repr

mutual

/-- All bare text-node strings inside one item (recursively). -/
def textsOfItem : Item → List String
  | .text s => [s]
  | .move _ _ _ => []
  | .comm _ => []
  | .varSpan ch => textsOfList ch

/-- All bare text-node strings inside a container, in order. -/
def textsOfList : List Item → List String
  | [] => []
  | it :: rest => textsOfItem it ++ textsOfList rest

end

/-- `t.nodeValue.replace(/\s+$/, "")`: strip trailing whitespace. -/
def stripTrailWS (s : String) : String :=
  String.mk ((s.data.reverse.dropWhile (fun c => c.isWhitespace)).reverse)

/-- `trim(el)` from `app.js`: if the container's last child is a text
node, strip its trailing whitespace, removing it when it becomes empty. -/
def trimLast : List Item → List Item
  | [] => []
  | [Item.text s] =>
    let s2 := stripTrailWS s
    if s2 = "" then [] else [Item.text s2]
  | x :: rest => x :: trimLast rest

/-- One pending rendering call: an iteration of `renderSeq`'s `while`
loop, a `renderVars` entry, or the remainder of `renderVars`' `for`
loop over a `vars` list. -/
inductive RCall where
  | seq (cur : Option Nat) (m : Nat) (sd : String) (sup : Bool)
  | vars (p : Option Nat) (m : Nat) (sd : String)
  | varsGo (vs : List Nat) (m : Nat) (sd : String)
deriving Repr

/-- The mutually recursive `renderSeq`/`renderVars` pair of `app.js`,
with explicit fuel (`none` = fuel exhausted).  Each `renderSeq` case
mirrors one iteration of the `while (cur)` loop: number text for White
when not suppressed, the move span, a space, an optional comment span,
then `renderVars(container, cur.parent, m, side)` and the loop
continuation.  `varsGo` builds one `span.variation` per entry:
prefix `"(N."` (White) or `"(N... "` (Black), the recursive
`renderSeq`, `trim`, then `") "`. -/
def renderGo (st : TreeState) : Nat → RCall → Option (List Item)
  | 0, _ => none
  | _ + 1, .seq none _ _ _ => some []
  | f + 1, .seq (some i) m sd sup =>
    let nd := getNode st i
    let mv : Item := Item.move i (decide (st.cursor = i)) (figSAN (nd.san.getD ""))
    let cmt : List Item :=
      if nd.comment = "" then []
      else [Item.comm ("\x7b" ++ nd.comment ++ "\x7d ")]
    if sd = "w" then
      let numPart : List Item :=
        if sup then [] else [Item.text (toString m ++ ". ")]
      Option.bind (renderGo st f (.vars nd.parent m "w")) (fun vs =>
        Option.bind (renderGo st f (.seq nd.next m "b" false)) (fun rest =>
          some (numPart ++ mv :: Item.text " " :: (cmt ++ vs ++ rest))))
    else
      Option.bind (renderGo st f (.vars nd.parent m "b")) (fun vs =>
        Option.bind (renderGo st f (.seq nd.next (m + 1) "w" sup)) (fun rest =>
          some (mv :: Item.text " " :: (cmt ++ vs ++ rest))))
  | _ + 1, .vars none _ _ => some []
  | f + 1, .vars (some p) m sd => renderGo st f (.varsGo (getNode st p).vars m sd)
  | _ + 1, .varsGo [] _ _ => some []
  | f + 1, .varsGo (v :: rest) m sd =>
    Option.bind (renderGo st f (.seq (some v) m sd (decide (sd = "w"))))
      (fun inner =>
        let pre : Item := Item.text
          (if sd = "w" then "(" ++ toString m ++ "."
           else "(" ++ toString m ++ "... ")
        let children := trimLast (pre :: inner) ++ [Item.text ") "]
        Option.bind (renderGo st f (.varsGo rest m sd)) (fun more =>
          some (Item.varSpan children :: more)))

/-- `render()` from `app.js`: `renderSeq(root.next, main, 1, "w", false)`. -/
def render (s : TreeState) (fuel : Nat) : Option (List Item) :=
  renderGo s fuel (.seq (getNode s 0).next 1 "w" false)

/-! ## Session steps and reachable states -/

/-- One user interaction on the viewer state: a validated move drop,
a control-button click, a move-span click, or a comment save. -/
inductive Step : TreeState → TreeState → Prop
  | applyMoveS (s : TreeState) (san fen t : String) :
      Step s (applyMove s san fen t)
  | promoteS (s : TreeState) : Step s (promoteVariation s)
  | deleteS (s : TreeState) : Step s (deleteVariation s)
  | startS (s : TreeState) : Step s (navStart s)
  | endS (s : TreeState) : Step s (navEnd s)
  | prevS (s : TreeState) : Step s (navPrev s)
  | nextS (s : TreeState) : Step s (navNext s)
  | gotoS (s : TreeState) (i : Nat) (h : i < s.nodes.length) :
      Step s (gotoNode s i)
  | commentS (s : TreeState) (t : String) : Step s (setCommentClick s t)

/-- States reachable from the freshly initialised viewer. -/
inductive Reachable : TreeState → Prop
  | init : Reachable initState
  | step {s s' : TreeState} : Reachable s → Step s s' → Reachable s'

/-- Structural invariant of the arena: the id counter is one past the
arena, the cursor is in range, the root has no parent, every node's id
is its index plus one, and `next`/`vars`/`parent` links are in range
with `next` and `vars` pointing strictly forward and `parent` strictly
backward. -/
def Inv (s : TreeState) : Prop :=
  s.nextId = s.nodes.length + 1 ∧
  s.cursor < s.nodes.length ∧
  (getNode s 0).parent = none ∧
  ∀ k, k < s.nodes.length →
    (getNode s k).id = k + 1 ∧
    (∀ j, (getNode s k).next = some j → k < j ∧ j < s.nodes.length) ∧
    (∀ j, j ∈ (getNode s k).vars → k < j ∧ j < s.nodes.length) ∧
    (∀ p, (getNode s k).parent = some p → p < k)

theorem getNode_updNode (s : TreeState) (i k : Nat) (f : Node → Node) :
    getNode (updNode s i f) k =
      if i = k ∧ i < s.nodes.length then f (getNode s i) else getNode s k := by
  by_cases h : i = k
  · subst h
    by_cases hl : i < s.nodes.length
    · simp [getNode, updNode, List.getElem?_set_self hl, hl]
    · simp [getNode, updNode, List.set_eq_of_length_le (Nat.le_of_not_lt hl), hl]
  · simp [getNode, updNode, List.getElem?_set_ne h, h]

theorem length_updNode (s : TreeState) (i : Nat) (f : Node → Node) :
    (updNode s i f).nodes.length = s.nodes.length := by
  simp [updNode]

theorem getNode_withCursor (t : TreeState) (c k : Nat) :
    getNode { nodes := t.nodes, cursor := c, nextId := t.nextId } k
      = getNode t k := rfl

theorem cursor_updNode (s : TreeState) (i : Nat) (f : Node → Node) :
    (updNode s i f).cursor = s.cursor := rfl

theorem nextId_updNode (s : TreeState) (i : Nat) (f : Node → Node) :
    (updNode s i f).nextId = s.nextId := rfl

theorem inv_init : Inv initState := by
  refine ⟨rfl, by decide, rfl, ?_⟩
  intro k hk
  have hk0 : k = 0 := by
    simp only [initState, List.length_singleton] at hk
    omega
  subst hk0
  refine ⟨rfl, ?_, ?_, ?_⟩ <;> simp [getNode, initState]

theorem inv_navStart {s : TreeState} (h : Inv s) : Inv (navStart s) := by
  obtain ⟨h1, h2, h3, h4⟩ := h
  exact ⟨h1, Nat.lt_of_le_of_lt (Nat.zero_le _) h2, h3, h4⟩

theorem inv_navPrev {s : TreeState} (h : Inv s) : Inv (navPrev s) := by
  obtain ⟨h1, h2, h3, h4⟩ := h
  unfold navPrev
  cases hp : (getNode s s.cursor).parent with
  | none => exact ⟨h1, h2, h3, h4⟩
  | some p =>
    have hpc : p < s.cursor := ((h4 s.cursor h2).2.2.2) p hp
    exact ⟨h1, Nat.lt_trans hpc h2, h3, h4⟩

theorem inv_navNext {s : TreeState} (h : Inv s) : Inv (navNext s) := by
  obtain ⟨h1, h2, h3, h4⟩ := h
  unfold navNext
  cases hn : (getNode s s.cursor).next with
  | none => exact ⟨h1, h2, h3, h4⟩
  | some j =>
    have hj : j < s.nodes.length := (((h4 s.cursor h2).2.1) j hn).2
    exact ⟨h1, hj, h3, h4⟩

theorem follow_lt {s : TreeState}
    (hb : ∀ k, k < s.nodes.length →
      ∀ j, (getNode s k).next = some j → k < j ∧ j < s.nodes.length) :
    ∀ f i, i < s.nodes.length → follow s f i < s.nodes.length := by
  intro f
  induction f with
  | zero => intro i hi; exact hi
  | succ f ih =>
    intro i hi
    unfold follow
    cases hn : (getNode s i).next with
    | none => exact hi
    | some j => exact ih j ((hb i hi j hn).2)

theorem inv_navEnd {s : TreeState} (h : Inv s) : Inv (navEnd s) := by
  obtain ⟨h1, h2, h3, h4⟩ := h
  have h0 : 0 < s.nodes.length := Nat.lt_of_le_of_lt (Nat.zero_le _) h2
  exact ⟨h1, follow_lt (fun k hk => (h4 k hk).2.1) _ 0 h0, h3, h4⟩

theorem inv_gotoNode {s : TreeState} (h : Inv s) (i : Nat)
    (hi : i < s.nodes.length) : Inv (gotoNode s i) := by
  obtain ⟨h1, _, h3, h4⟩ := h
  exact ⟨h1, hi, h3, h4⟩

theorem inv_setComment {s : TreeState} (h : Inv s) (t : String) :
    Inv (setCommentClick s t) := by
  obtain ⟨h1, h2, h3, h4⟩ := h
  unfold setCommentClick
  by_cases hc : s.cursor = 0
  · simp only [hc, if_pos rfl]; exact ⟨h1, h2, h3, h4⟩
  · simp only [if_neg hc]
    refine ⟨?_, ?_, ?_, ?_⟩
    · rw [nextId_updNode, length_updNode]; exact h1
    · rw [cursor_updNode, length_updNode]; exact h2
    · rw [getNode_updNode]
      rw [if_neg (fun hh : s.cursor = 0 ∧ s.cursor < s.nodes.length => hc hh.1)]
      exact h3
    · intro k hk
      rw [length_updNode] at hk
      rw [length_updNode, getNode_updNode]
      by_cases he : s.cursor = k ∧ s.cursor < s.nodes.length
      · rw [if_pos he]
        have hkk := h4 k hk
        rcases he with ⟨he1, _⟩
        subst he1
        simpa using hkk
      · rw [if_neg he]
        exact h4 k hk

theorem length_grown (s : TreeState) (san fen : String) :
    (grown s san fen).nodes.length = s.nodes.length + 1 := by
  simp [grown]

theorem nextId_grown (s : TreeState) (san fen : String) :
    (grown s san fen).nextId = s.nextId + 1 := rfl

theorem getNode_grown_lt {s : TreeState} {k : Nat} (san fen : String)
    (h : k < s.nodes.length) : getNode (grown s san fen) k = getNode s k := by
  simp [getNode, grown, List.getElem?_append_left h]

theorem getNode_grown_len (s : TreeState) (san fen : String) :
    getNode (grown s san fen) s.nodes.length = newNodeFor s san fen := by
  simp [getNode, grown, List.getElem?_concat_length]

theorem applyMove_replay {s : TreeState} {san : String} (fen tA : String)
    {j : Nat} (hn : (getNode s s.cursor).next = some j)
    (hs : (getNode s j).san = some san) :
    applyMove s san fen tA =
      { updNode s j (fun x => { x with fen := fen }) with cursor := j } := by
  simp only [applyMove, hn, hs, if_true]

theorem applyMove_extend {s : TreeState} (san fen tA : String)
    (hn : (getNode s s.cursor).next = none) :
    applyMove s san fen tA =
      { updNode (updNode (grown s san fen) s.cursor fun x =>
          { x with next := some s.nodes.length }) s.nodes.length
          (fun x => { x with fen := fen }) with
        cursor := s.nodes.length } := by
  simp only [applyMove, hn]

theorem applyMove_promoteCase {s : TreeState} {san tA : String} (fen : String)
    {j : Nat} (hn : (getNode s s.cursor).next = some j)
    (hs : ¬ (getNode s j).san = some san) (ht : tA = "w") :
    applyMove s san fen tA =
      { updNode (updNode (grown s san fen) s.cursor fun x =>
          { x with vars := x.vars ++ [j], next := some s.nodes.length })
          s.nodes.length (fun x => { x with fen := fen }) with
        cursor := s.nodes.length } := by
  simp only [applyMove, hn, hs, ht, if_false, if_true]

theorem applyMove_appendCase {s : TreeState} {san tA : String} (fen : String)
    {j : Nat} (hn : (getNode s s.cursor).next = some j)
    (hs : ¬ (getNode s j).san = some san) (ht : ¬ tA = "w") :
    applyMove s san fen tA =
      { updNode (updNode (grown s san fen) s.cursor fun x =>
          { x with vars := x.vars ++ [s.nodes.length] })
          s.nodes.length (fun x => { x with fen := fen }) with
        cursor := s.nodes.length } := by
  simp only [applyMove, hn, hs, ht, if_false]

theorem inv_applyMove_create {s : TreeState} (h : Inv s)
    (san fen : String) (C : Node → Node)
    (hCid : ∀ x, (C x).id = x.id)
    (hCparent : ∀ x, (C x).parent = x.parent)
    (hCnext : ∀ j, (C (getNode s s.cursor)).next = some j →
      (s.cursor < j ∧ j < s.nodes.length) ∨ j = s.nodes.length)
    (hCvars : ∀ j, j ∈ (C (getNode s s.cursor)).vars →
      (s.cursor < j ∧ j < s.nodes.length) ∨ j = s.nodes.length) :
    Inv { updNode (updNode (grown s san fen) s.cursor C) s.nodes.length
          (fun x => { x with fen := fen }) with
          cursor := s.nodes.length } := by
  obtain ⟨h1, h2, h3, h4⟩ := h
  have hgl : ∀ k, getNode (updNode (updNode (grown s san fen) s.cursor C)
      s.nodes.length (fun x => { x with fen := fen })) k =
      if k = s.nodes.length then
        { newNodeFor s san fen with fen := fen }
      else if k = s.cursor then C (getNode s s.cursor)
      else getNode s k := by
    intro k
    rw [getNode_updNode]
    by_cases hkl : k = s.nodes.length
    · subst hkl
      rw [if_pos ⟨rfl, by rw [length_updNode, length_grown]; omega⟩,
        if_pos rfl, getNode_updNode,
        if_neg (fun hh => (Nat.ne_of_lt h2) hh.1),
        getNode_grown_len]
    · rw [if_neg (fun hh => hkl hh.1.symm), if_neg hkl, getNode_updNode]
      by_cases hkc : k = s.cursor
      · subst hkc
        rw [if_pos ⟨rfl, by rw [length_grown]; omega⟩, if_pos rfl,
          getNode_grown_lt _ _ h2]
      · rw [if_neg (fun hh => hkc hh.1.symm), if_neg hkc]
        by_cases hkb : k < s.nodes.length
        · exact getNode_grown_lt _ _ hkb
        · have hge : s.nodes.length + 1 ≤ k := by omega
          simp [getNode, grown, List.getElem?_eq_none, hge,
            List.getElem?_eq_none (Nat.le_of_not_lt hkb)]
  refine ⟨?_, ?_, ?_, ?_⟩
  · simp only [nextId_updNode, length_updNode, length_grown, nextId_grown]
    omega
  · simp only [length_updNode, length_grown]
    omega
  · simp only [getNode_withCursor]
    rw [hgl]
    have h0 : (0 : Nat) ≠ s.nodes.length := by omega
    rw [if_neg h0]
    by_cases h0c : (0 : Nat) = s.cursor
    · rw [if_pos h0c, hCparent, ← h0c]; exact h3
    · rw [if_neg h0c]; exact h3
  · intro k hk
    simp only [getNode_withCursor, length_updNode, length_grown] at hk ⊢
    rw [hgl]
    by_cases hkl : k = s.nodes.length
    · subst hkl
      rw [if_pos rfl]
      refine ⟨by simpa [newNodeFor] using h1, ?_, ?_, ?_⟩
      · intro j hj; simp [newNodeFor] at hj
      · intro j hj; simp [newNodeFor] at hj
      · intro p hp
        simp only [newNodeFor] at hp
        simp only [Option.some.injEq] at hp
        omega
    · rw [if_neg hkl]
      have hklt : k < s.nodes.length := by omega
      by_cases hkc : k = s.cursor
      · subst hkc
        rw [if_pos rfl]
        have hkk := h4 s.cursor h2
        refine ⟨by rw [hCid]; exact hkk.1, ?_, ?_, ?_⟩
        · intro j hj
          rcases hCnext j hj with hc | hc
          · exact ⟨hc.1, by omega⟩
          · subst hc; exact ⟨h2, by omega⟩
        · intro j hj
          rcases hCvars j hj with hc | hc
          · exact ⟨hc.1, by omega⟩
          · subst hc; exact ⟨h2, by omega⟩
        · intro p hp; rw [hCparent] at hp; exact hkk.2.2.2 p hp
      · rw [if_neg hkc]
        have hkk := h4 k hklt
        refine ⟨hkk.1, ?_, ?_, hkk.2.2.2⟩
        · intro j hj
          have := hkk.2.1 j hj
          exact ⟨this.1, by omega⟩
        · intro j hj
          have := hkk.2.2.1 j hj
          exact ⟨this.1, by omega⟩

theorem inv_applyMove {s : TreeState} (h : Inv s) (san fen tA : String) :
    Inv (applyMove s san fen tA) := by
  rcases hn : (getNode s s.cursor).next with _ | j
  · rw [applyMove_extend san fen tA hn]
    refine inv_applyMove_create h san fen _ (fun x => rfl) (fun x => rfl)
      ?_ ?_
    · intro j hj
      simp only [Option.some.injEq] at hj
      exact Or.inr hj.symm
    · intro j hj
      exact Or.inl ((h.2.2.2 s.cursor h.2.1).2.2.1 j hj)
  · by_cases hs : (getNode s j).san = some san
    · obtain ⟨h1, h2, h3, h4⟩ := h
      rw [applyMove_replay fen tA hn hs]
      have hj : s.cursor < j ∧ j < s.nodes.length := (h4 s.cursor h2).2.1 j hn
      refine ⟨?_, ?_, ?_, ?_⟩
      · simp only [nextId_updNode, length_updNode]
        exact h1
      · simp only [length_updNode]
        exact hj.2
      · simp only [getNode_withCursor]
        rw [getNode_updNode]
        by_cases he : j = 0 ∧ j < s.nodes.length
        · rw [if_pos he]
          have := h3
          rw [← he.1] at this
          simpa using this
        · rw [if_neg he]; exact h3
      · intro k hk
        simp only [getNode_withCursor, length_updNode] at hk ⊢
        rw [getNode_updNode]
        by_cases he : j = k ∧ j < s.nodes.length
        · rw [if_pos he]
          have hkk := h4 k hk
          rw [← he.1] at hkk ⊢
          simpa using hkk
        · rw [if_neg he]; exact h4 k hk
    · by_cases ht : tA = "w"
      · rw [applyMove_promoteCase fen hn hs ht]
        refine inv_applyMove_create h san fen _ (fun x => rfl) (fun x => rfl)
          ?_ ?_
        · intro i hi
          simp only [Option.some.injEq] at hi
          exact Or.inr hi.symm
        · intro i hi
          simp only [List.mem_append, List.mem_singleton] at hi
          rcases hi with hi | hi
          · exact Or.inl ((h.2.2.2 s.cursor h.2.1).2.2.1 i hi)
          · rw [hi]
            exact Or.inl ((h.2.2.2 s.cursor h.2.1).2.1 j hn)
      · rw [applyMove_appendCase fen hn hs ht]
        refine inv_applyMove_create h san fen _ (fun x => rfl) (fun x => rfl)
          ?_ ?_
        · intro i hi
          exact Or.inl ((h.2.2.2 s.cursor h.2.1).2.1 i hi)
        · intro i hi
          simp only [List.mem_append, List.mem_singleton] at hi
          rcases hi with hi | hi
          · exact Or.inl ((h.2.2.2 s.cursor h.2.1).2.2.1 i hi)
          · exact Or.inr hi

theorem inv_promote {s : TreeState} (h : Inv s) : Inv (promoteVariation s) := by
  obtain ⟨h1, h2, h3, h4⟩ := h
  simp only [promoteVariation]
  split
  · split
    · rename_i hv p hp
      have hpc : p < s.cursor := (h4 s.cursor h2).2.2.2 p hp
      have hplen : p < s.nodes.length := Nat.lt_trans hpc h2
      refine ⟨?_, ?_, ?_, ?_⟩
      · rw [nextId_updNode, length_updNode]; exact h1
      · rw [length_updNode]; exact h2
      · rw [getNode_withCursor, getNode_updNode]
        by_cases he : p = 0 ∧ p < s.nodes.length
        · rw [if_pos he]; rcases he with ⟨he1, _⟩; subst he1; exact h3
        · rw [if_neg he]; exact h3
      · intro k hk
        simp only [getNode_withCursor, length_updNode] at hk ⊢
        rw [getNode_updNode]
        by_cases he : p = k ∧ p < s.nodes.length
        · rw [if_pos he]
          rcases he with ⟨he1, _⟩
          subst he1
          have hkk := h4 p hk
          refine ⟨hkk.1, ?_, ?_, hkk.2.2.2⟩
          · intro j hj
            simp only [Option.some.injEq] at hj
            subst hj
            exact ⟨hpc, h2⟩
          · intro j hj
            simp only at hj
            rcases hx : (getNode s p).next with _ | jold
            · rw [hx] at hj
              simp only at hj
              exact hkk.2.2.1 j (List.mem_of_mem_filter hj)
            · rw [hx] at hj
              simp only [List.mem_cons] at hj
              rcases hj with hj | hj
              · exact hj ▸ hkk.2.1 jold hx
              · exact hkk.2.2.1 j (List.mem_of_mem_filter hj)
        · rw [if_neg he]
          exact h4 k hk
    · exact ⟨h1, h2, h3, h4⟩
  · exact ⟨h1, h2, h3, h4⟩

theorem inv_delete {s : TreeState} (h : Inv s) : Inv (deleteVariation s) := by
  obtain ⟨h1, h2, h3, h4⟩ := h
  simp only [deleteVariation]
  split
  · split
    · rename_i hv p hp
      have hpc : p < s.cursor := (h4 s.cursor h2).2.2.2 p hp
      have hplen : p < s.nodes.length := Nat.lt_trans hpc h2
      refine ⟨?_, ?_, ?_, ?_⟩
      · rw [nextId_updNode, length_updNode]; exact h1
      · rw [length_updNode]; exact hplen
      · rw [getNode_withCursor, getNode_updNode]
        by_cases he : p = 0 ∧ p < s.nodes.length
        · rw [if_pos he]; rcases he with ⟨he1, _⟩; subst he1; exact h3
        · rw [if_neg he]; exact h3
      · intro k hk
        simp only [getNode_withCursor, length_updNode] at hk ⊢
        rw [getNode_updNode]
        by_cases he : p = k ∧ p < s.nodes.length
        · rw [if_pos he]
          rcases he with ⟨he1, _⟩
          subst he1
          have hkk := h4 p hk
          refine ⟨hkk.1, hkk.2.1, ?_, hkk.2.2.2⟩
          intro j hj
          simp only at hj
          exact hkk.2.2.1 j (List.mem_of_mem_filter hj)
        · rw [if_neg he]
          exact h4 k hk
    · exact ⟨h1, h2, h3, h4⟩
  · exact ⟨h1, h2, h3, h4⟩

theorem inv_step {s s' : TreeState} (h : Inv s) (hs : Step s s') : Inv s' := by
  cases hs with
  | applyMoveS san fen t => exact inv_applyMove h san fen t
  | promoteS => exact inv_promote h
  | deleteS => exact inv_delete h
  | startS => exact inv_navStart h
  | endS => exact inv_navEnd h
  | prevS => exact inv_navPrev h
  | nextS => exact inv_navNext h
  | gotoS i hi => exact inv_gotoNode h i hi
  | commentS t => exact inv_setComment h t

theorem inv_reachable {s : TreeState} (h : Reachable s) : Inv s := by
  induction h with
  | init => exact inv_init
  | step _ hs ih => exact inv_step ih hs

/-- The state produced by `applyMove` on the non-replay paths, as a
function of the placement `C` applied to the cursor node. -/
def createState (s : TreeState) (san fen : String) (C : Node → Node) :
    TreeState :=
  { updNode (updNode (grown s san fen) s.cursor C) s.nodes.length
      (fun x => { x with fen := fen }) with
    cursor := s.nodes.length }

theorem length_createState (s : TreeState) (san fen : String)
    (C : Node → Node) :
    (createState s san fen C).nodes.length = s.nodes.length + 1 := by
  simp only [createState, length_updNode, length_grown]

theorem cursor_createState (s : TreeState) (san fen : String)
    (C : Node → Node) : (createState s san fen C).cursor = s.nodes.length :=
  rfl

theorem getNode_createState {s : TreeState} (san fen : String)
    (C : Node → Node) (hc : s.cursor < s.nodes.length) (k : Nat) :
    getNode (createState s san fen C) k =
      if k = s.nodes.length then { newNodeFor s san fen with fen := fen }
      else if k = s.cursor then C (getNode s s.cursor)
      else getNode s k := by
  show getNode { updNode _ _ _ with cursor := s.nodes.length } k = _
  simp only [getNode_withCursor]
  rw [getNode_updNode]
  by_cases hkl : k = s.nodes.length
  · subst hkl
    rw [if_pos ⟨rfl, by rw [length_updNode, length_grown]; omega⟩,
      if_pos rfl, getNode_updNode,
      if_neg (fun hh => (Nat.ne_of_lt hc) hh.1),
      getNode_grown_len]
  · rw [if_neg (fun hh => hkl hh.1.symm), if_neg hkl, getNode_updNode]
    by_cases hkc : k = s.cursor
    · subst hkc
      rw [if_pos ⟨rfl, by rw [length_grown]; omega⟩, if_pos rfl,
        getNode_grown_lt _ _ hc]
    · rw [if_neg (fun hh => hkc hh.1.symm), if_neg hkc]
      by_cases hkb : k < s.nodes.length
      · exact getNode_grown_lt _ _ hkb
      · have hge : s.nodes.length + 1 ≤ k := by omega
        simp [getNode, grown, List.getElem?_eq_none, hge,
          List.getElem?_eq_none (Nat.le_of_not_lt hkb)]

theorem applyMove_extend_eq {s : TreeState} (san fen tA : String)
    (hn : (getNode s s.cursor).next = none) :
    applyMove s san fen tA =
      createState s san fen (fun x => { x with next := some s.nodes.length }) :=
  applyMove_extend san fen tA hn

theorem applyMove_promoteCase_eq {s : TreeState} {san tA : String}
    (fen : String) {j : Nat} (hn : (getNode s s.cursor).next = some j)
    (hs : ¬ (getNode s j).san = some san) (ht : tA = "w") :
    applyMove s san fen tA =
      createState s san fen (fun x =>
        { x with vars := x.vars ++ [j], next := some s.nodes.length }) :=
  applyMove_promoteCase fen hn hs ht

theorem applyMove_appendCase_eq {s : TreeState} {san tA : String}
    (fen : String) {j : Nat} (hn : (getNode s s.cursor).next = some j)
    (hs : ¬ (getNode s j).san = some san) (ht : ¬ tA = "w") :
    applyMove s san fen tA =
      createState s san fen (fun x =>
        { x with vars := x.vars ++ [s.nodes.length] }) :=
  applyMove_appendCase fen hn hs ht

/-! ## Concrete session states used as witnesses and counterexamples -/

/-- Fresh viewer after dropping `1.e4` (Black to move afterwards). -/
def exBase : TreeState := applyMove initState "e4" "fenE4" "b"

/-- `exBase` after clicking the back button: cursor on the root, which
already has the `e4` node as its `next`. -/
def exRoot : TreeState := navPrev exBase

/-- `exRoot` after dropping `1.d4` instead: `turnAfterMove = "b"`, so the
new node is appended to the root's `vars` (`root.vars = [2]`). -/
def exVar : TreeState := applyMove exRoot "d4" "fenD4" "b"

/-- `exVar` back at the root and a third first move `1.c4` dropped:
`root.vars = [2, 3]`, `root.next = 1`, cursor on node 3. -/
def exTwoVars : TreeState := applyMove (navPrev exVar) "c4" "fenC4" "b"

/-- `exBase` with a comment saved on the `e4` node and `1...e5` played:
mainline `1.e4 {c} e5` with no variations. -/
def exC8 : TreeState := applyMove (setCommentClick exBase "c") "e5" "fenE5" "w"

theorem reachable_exBase : Reachable exBase :=
  Reachable.step Reachable.init (Step.applyMoveS _ _ _ _)

theorem reachable_exRoot : Reachable exRoot :=
  Reachable.step reachable_exBase (Step.prevS _)

theorem reachable_exVar : Reachable exVar :=
  Reachable.step reachable_exRoot (Step.applyMoveS _ _ _ _)

theorem reachable_exTwoVars : Reachable exTwoVars :=
  Reachable.step (Reachable.step reachable_exVar (Step.prevS _))
    (Step.applyMoveS _ _ _ _)

theorem reachable_exC8 : Reachable exC8 :=
  Reachable.step (Reachable.step reachable_exBase (Step.commentS _ _))
    (Step.applyMoveS _ _ _ _)

/-! ## Claim theorems -/

theorem createState_newNode_facts (s : TreeState) (san fen : String)
    (C : Node → Node) (hc : s.cursor < s.nodes.length) :
    (createState s san fen C).nodes.length = s.nodes.length + 1 ∧
    (getNode (createState s san fen C) s.nodes.length).san = some san ∧
    (getNode (createState s san fen C) s.nodes.length).parent =
      some s.cursor ∧
    (createState s san fen C).cursor = s.nodes.length := by
  refine ⟨length_createState _ _ _ _, ?_, ?_, rfl⟩
  · rw [getNode_createState san fen C hc, if_pos rfl]; rfl
  · rw [getNode_createState san fen C hc, if_pos rfl]; rfl

/-- Claim C2: `applyMove(moveText, resultingPosition, sideToMoveAfter)`
advances the cursor without creating any new node exactly when the
cursor's existing `mainlineNext` is non-null and its move equals
`moveText` (tree node count unchanged); in every other case — including
when `moveText` equals the move of a node already present in the
cursor's variations — a new node is created as a child of the cursor. -/
theorem c2_replay_idempotent_else_creates (s : TreeState)
    (san fen tA : String) (hc : s.cursor < s.nodes.length) :
    ((applyMove s san fen tA).nodes.length = s.nodes.length ↔
      (∃ j, (getNode s s.cursor).next = some j ∧
        (getNode s j).san = some san)) ∧
    (∀ j, (getNode s s.cursor).next = some j →
      (getNode s j).san = some san →
      (applyMove s san fen tA).cursor = j) ∧
    ((∀ j, (getNode s s.cursor).next = some j →
        ¬ (getNode s j).san = some san) →
      (applyMove s san fen tA).nodes.length = s.nodes.length + 1 ∧
      (getNode (applyMove s san fen tA) s.nodes.length).san = some san ∧
      (getNode (applyMove s san fen tA) s.nodes.length).parent =
        some s.cursor ∧
      (applyMove s san fen tA).cursor = s.nodes.length) := by
  rcases hn : (getNode s s.cursor).next with _ | j
  · rw [applyMove_extend_eq san fen tA hn]
    refine ⟨?_, ?_, ?_⟩
    · rw [length_createState]
      constructor
      · intro hlen; omega
      · rintro ⟨j, hj, _⟩; cases hj
    · intro j hj; cases hj
    · intro _
      exact createState_newNode_facts s san fen _ hc
  · by_cases hs : (getNode s j).san = some san
    · rw [applyMove_replay fen tA hn hs]
      refine ⟨?_, ?_, ?_⟩
      · constructor
        · intro _; exact ⟨j, rfl, hs⟩
        · intro _
          simp only [length_updNode]
      · intro j2 hj2 _
        injection hj2 with hjj
      · intro hno
        exact absurd hs (hno j rfl)
    · by_cases ht : tA = "w"
      · rw [applyMove_promoteCase_eq fen hn hs ht]
        refine ⟨?_, ?_, ?_⟩
        · rw [length_createState]
          constructor
          · intro hlen; omega
          · rintro ⟨j2, hj2, hs2⟩
            injection hj2 with hjj
            subst hjj
            exact absurd hs2 hs
        · intro j2 hj2 hs2
          injection hj2 with hjj
          subst hjj
          exact absurd hs2 hs
        · intro _
          exact createState_newNode_facts s san fen _ hc
      · rw [applyMove_appendCase_eq fen hn hs ht]
        refine ⟨?_, ?_, ?_⟩
        · rw [length_createState]
          constructor
          · intro hlen; omega
          · rintro ⟨j2, hj2, hs2⟩
            injection hj2 with hjj
            subst hjj
            exact absurd hs2 hs
        · intro j2 hj2 hs2
          injection hj2 with hjj
          subst hjj
          exact absurd hs2 hs
        · intro _
          exact createState_newNode_facts s san fen _ hc

/-- Witness for C2: on the fresh-after-`1.e4` state back at the root,
replaying `e4` keeps the node count at 2 and moves the cursor to the
existing node 1. -/
theorem c2_replay_idempotent_else_creates_witness :
    (applyMove exRoot "e4" "fenE4b" "b").nodes.length =
      exRoot.nodes.length ∧
    (applyMove exRoot "e4" "fenE4b" "b").cursor = 1 := by
  have h := c2_replay_idempotent_else_creates exRoot "e4" "fenE4b" "b"
    (by decide)
  exact ⟨h.1.mpr ⟨1, by decide, by decide⟩, h.2.1 1 (by decide) (by decide)⟩

/-- Claim C3: for every cursor node whose `mainlineNext` is null,
`applyMove` of any move creates a new node, sets it as that cursor's
`mainlineNext`, and moves the cursor to the new node. -/
theorem c3_extends_mainline (s : TreeState) (san fen tA : String)
    (hc : s.cursor < s.nodes.length)
    (hn : (getNode s s.cursor).next = none) :
    (applyMove s san fen tA).nodes.length = s.nodes.length + 1 ∧
    (getNode (applyMove s san fen tA) s.nodes.length).san = some san ∧
    (getNode (applyMove s san fen tA) s.nodes.length).parent =
      some s.cursor ∧
    (getNode (applyMove s san fen tA) s.cursor).next =
      some s.nodes.length ∧
    (applyMove s san fen tA).cursor = s.nodes.length := by
  rw [applyMove_extend_eq san fen tA hn]
  have hfacts := createState_newNode_facts s san fen
    (fun x => { x with next := some s.nodes.length }) hc
  refine ⟨hfacts.1, hfacts.2.1, hfacts.2.2.1, ?_, hfacts.2.2.2⟩
  rw [getNode_createState san fen _ hc,
    if_neg (Nat.ne_of_lt hc), if_pos rfl]

/-- Witness for C3: playing `1.e4` on the fresh viewer makes node 1 the
root's `mainlineNext` and moves the cursor there. -/
theorem c3_extends_mainline_witness :
    exBase.nodes.length = 2 ∧
    (getNode exBase 0).next = some 1 ∧ exBase.cursor = 1 := by
  have h := c3_extends_mainline initState "e4" "fenE4" "b"
    (by decide) (by decide)
  exact ⟨h.1, h.2.2.2.1, h.2.2.2.2⟩

theorem promoteVariation_eq {s : TreeState} {p : Nat}
    (hp : (getNode s s.cursor).parent = some p)
    (hv : ¬ (getNode s p).next = some s.cursor) :
    promoteVariation s =
      { updNode s p (fun x =>
          { x with
            vars := (match x.next with
              | some j => j :: x.vars.filter (fun v => v ≠ s.cursor)
              | none => x.vars.filter (fun v => v ≠ s.cursor)),
            next := some s.cursor }) with
        cursor := s.cursor } := by
  have hisv : isVariation s s.cursor = true := by
    simp only [isVariation, hp]
    exact decide_eq_true hv
  simp only [promoteVariation, hisv, if_true, hp]

theorem deleteVariation_eq {s : TreeState} {p : Nat}
    (hp : (getNode s s.cursor).parent = some p)
    (hv : ¬ (getNode s p).next = some s.cursor) :
    deleteVariation s =
      { updNode s p (fun x =>
          { x with vars := x.vars.filter (fun v => v ≠ s.cursor) }) with
        cursor := p } := by
  have hisv : isVariation s s.cursor = true := by
    simp only [isVariation, hp]
    exact decide_eq_true hv
  simp only [deleteVariation, hisv, if_true, hp]

/-- Claim C1, stated as the spec writes it.  The promotion condition is
"the move being applied is a White move and the cursor's
side-to-move-after is White"; a move is White's exactly when the side to
move after it is Black, which the consistency premise records. -/
def C1Claim : Prop :=
  ∀ (s : TreeState) (san fen tA : String) (moverIsWhite : Bool),
    (moverIsWhite = true ↔ tA = "b") →
    s.cursor < s.nodes.length →
    ∀ j, (getNode s s.cursor).next = some j →
      ¬ (getNode s j).san = some san →
      if moverIsWhite = true ∧ tA = "w" then
        (getNode (applyMove s san fen tA) s.cursor).next =
          some s.nodes.length ∧
        j ∈ (getNode (applyMove s san fen tA) s.cursor).vars
      else
        (getNode (applyMove s san fen tA) s.cursor).next = some j ∧
        (getNode (applyMove s san fen tA) s.cursor).vars =
          (getNode s s.cursor).vars ++ [s.nodes.length]

/-- Counterexample to claim C1: at the root of `1.e4` with the Black
move `d4` impossible, take instead the concrete drop `d4` with
`turnAfterMove = "w"` (a Black move per the consistency premise, so the
claim's promotion condition is false and it predicts a plain append);
the code nevertheless promotes: the root's `next` becomes the new node 2
and the old mainline child 1 is demoted into `vars`. -/
theorem c1_counterexample : ¬ C1Claim := by
  intro h
  have hx := h exRoot "d4" "fenD4" "w" false (by decide) (by decide) 1
    (by decide) (by decide)
  rw [if_neg (by simp)] at hx
  exact absurd hx.1 (by decide)

theorem applyMove_promotes_on_w {s : TreeState} {san : String}
    (fen : String) (hc : s.cursor < s.nodes.length) {j : Nat}
    (hn : (getNode s s.cursor).next = some j)
    (hs : ¬ (getNode s j).san = some san) (tA : String) (ht : tA = "w") :
    (getNode (applyMove s san fen tA) s.cursor).next =
      some s.nodes.length ∧
    (getNode (applyMove s san fen tA) s.cursor).vars =
      (getNode s s.cursor).vars ++ [j] := by
  rw [applyMove_promoteCase_eq fen hn hs ht,
    getNode_createState san fen _ hc,
    if_neg (Nat.ne_of_lt hc), if_pos rfl]
  exact ⟨rfl, rfl⟩

/-- Claim C1 as amended: when the cursor already has a `mainlineNext`
and a different move is applied, the new node is promoted to
`mainlineNext` (the previous mainline child being pushed onto the end of
`variations`) exactly when `turnAfterMove = "w"`, i.e. when the applied
move is a Black move; otherwise the new node is appended to `variations`
and `mainlineNext` is untouched. -/
theorem c1_amended_promote_iff_black_moved (s : TreeState)
    (san fen tA : String) (hc : s.cursor < s.nodes.length) (j : Nat)
    (hn : (getNode s s.cursor).next = some j)
    (hs : ¬ (getNode s j).san = some san) :
    (tA = "w" →
      (getNode (applyMove s san fen tA) s.cursor).next =
        some s.nodes.length ∧
      (getNode (applyMove s san fen tA) s.cursor).vars =
        (getNode s s.cursor).vars ++ [j]) ∧
    (¬ tA = "w" →
      (getNode (applyMove s san fen tA) s.cursor).next = some j ∧
      (getNode (applyMove s san fen tA) s.cursor).vars =
        (getNode s s.cursor).vars ++ [s.nodes.length]) := by
  constructor
  · intro ht
    exact applyMove_promotes_on_w fen hc hn hs tA ht
  · intro ht
    rw [applyMove_appendCase_eq fen hn hs ht,
      getNode_createState san fen _ hc,
      if_neg (Nat.ne_of_lt hc), if_pos rfl]
    exact ⟨hn, rfl⟩

/-- Witness for the amended C1: dropping `d4` at the root of `1.e4` with
`turnAfterMove = "w"` promotes node 2 and demotes node 1 into `vars`. -/
theorem c1_amended_promote_iff_black_moved_witness :
    (getNode (applyMove exRoot "d4" "fenD4" "w") exRoot.cursor).next =
      some exRoot.nodes.length ∧
    (getNode (applyMove exRoot "d4" "fenD4" "w") exRoot.cursor).vars =
      (getNode exRoot exRoot.cursor).vars ++ [1] :=
  (c1_amended_promote_iff_black_moved exRoot "d4" "fenD4" "w" (by decide)
    1 (by decide) (by decide)).1 rfl

/-- Claim C10: in `applyMove`'s automatic-promotion branch the demoted
previous mainline child is pushed onto the end of the cursor's `vars`
(it becomes the last listed variation), whereas `promoteVariation`
unshifts the demoted mainline child onto the front of `vars` (it becomes
the first listed variation). -/
theorem c10_applyMove_appends_promote_unshifts :
    (∀ (s : TreeState) (san fen : String) (j : Nat),
      s.cursor < s.nodes.length →
      (getNode s s.cursor).next = some j →
      ¬ (getNode s j).san = some san →
      (getNode (applyMove s san fen "w") s.cursor).vars =
        (getNode s s.cursor).vars ++ [j]) ∧
    (∀ (s : TreeState) (p m : Nat),
      p < s.nodes.length →
      (getNode s s.cursor).parent = some p →
      (getNode s p).next = some m →
      ¬ m = s.cursor →
      (getNode (promoteVariation s) p).vars =
        m :: (getNode s p).vars.filter (fun v => v ≠ s.cursor)) := by
  constructor
  · intro s san fen j hc hn hs
    exact (applyMove_promotes_on_w fen hc hn hs "w" rfl).2
  · intro s p m hplen hp hm hmc
    have hv : ¬ (getNode s p).next = some s.cursor := by
      rw [hm]
      intro hcontra
      injection hcontra with hcc
      exact hmc hcc
    rw [promoteVariation_eq hp hv]
    simp only [getNode_withCursor]
    rw [getNode_updNode, if_pos ⟨rfl, hplen⟩]
    simp only [hm]

/-- Witness for C10: dropping `d4` at the root of `1.e4` with
`turnAfterMove = "w"` appends the demoted node 1 at the end of `vars`,
while `promoteVariation` on the `d4` variation of `1.e4 (1.d4)`
unshifts the demoted node 1 to the front of `vars`. -/
theorem c10_applyMove_appends_promote_unshifts_witness :
    (getNode (applyMove exRoot "d4" "fenD4" "w") exRoot.cursor).vars =
      (getNode exRoot exRoot.cursor).vars ++ [1] ∧
    (getNode (promoteVariation exVar) 0).vars =
      1 :: (getNode exVar 0).vars.filter (fun v => v ≠ exVar.cursor) :=
  ⟨c10_applyMove_appends_promote_unshifts.1 exRoot "d4" "fenD4" 1
      (by decide) (by decide) (by decide),
    c10_applyMove_appends_promote_unshifts.2 exVar 0 1 (by decide)
      (by decide) (by decide) (by decide)⟩

theorem getNode_gotoNode (t : TreeState) (i k : Nat) :
    getNode (gotoNode t i) k = getNode t k := rfl

/-- A list with no duplicates containing `a` is a permutation of `a`
prepended to the list with `a` filtered out. -/
theorem perm_cons_filter_ne (l : List Nat) (a : Nat) (hd : l.Nodup)
    (ha : a ∈ l) : l.Perm (a :: l.filter (fun v => v ≠ a)) := by
  induction l with
  | nil => cases ha
  | cons x xs ih =>
    by_cases hax : x = a
    · subst hax
      have hnotin : x ∉ xs := (List.nodup_cons.mp hd).1
      have hfix : xs.filter (fun v => v ≠ x) = xs :=
        List.filter_eq_self.mpr
          (fun b hb => decide_eq_true (fun he => hnotin (he ▸ hb)))
      rw [List.filter_cons_of_neg (by simp), hfix]
    · have hx : a ∈ xs := by
        rcases List.mem_cons.mp ha with h1 | h1
        · exact absurd h1.symm hax
        · exact h1
      have hperm := ih (List.nodup_cons.mp hd).2 hx
      have hpos : (fun v => decide (v ≠ a)) x = true := decide_eq_true hax
      have hstep : List.filter (fun v => decide (v ≠ a)) (x :: xs) =
          x :: List.filter (fun v => decide (v ≠ a)) xs :=
        List.filter_cons_of_pos hpos
      rw [hstep]
      exact (hperm.cons x).trans (List.Perm.swap a x _)

/-- Counterexample to claim C4: on the tree `1.e4 (1.d4) (1.c4)`
(root `next = 1`, `vars = [2, 3]`), promoting the second variation
(node 3) and then re-promoting the demoted mainline child (node 1)
returns `next` to node 1 but leaves `vars = [3, 2]`, not the original
`[2, 3]`: the partition is not restored exactly. -/
theorem c4_counterexample :
    (getNode exTwoVars 0).next = some 1 ∧
    (getNode exTwoVars 0).vars = [2, 3] ∧
    (getNode (promoteVariation (gotoNode (promoteVariation exTwoVars) 1))
      0).next = some 1 ∧
    (getNode (promoteVariation (gotoNode (promoteVariation exTwoVars) 1))
      0).vars = [3, 2] ∧
    ¬ (getNode (promoteVariation (gotoNode (promoteVariation exTwoVars) 1))
      0).vars = (getNode exTwoVars 0).vars := by
  decide

/-- Claim C4 as amended: promoting a variation `v` (the cursor) and then
re-promoting the demoted previous mainline child `m` restores
`mainlineNext` to `m` exactly and restores `variations` up to order:
the final list is `v` followed by the original variations without `v`
(a permutation of the original), so the partition is restored exactly
as a set, and as a sequence exactly when `v` was listed first. -/
theorem c4_amended_roundtrip (s : TreeState) (p m : Nat)
    (hvp : (getNode s s.cursor).parent = some p)
    (hmp : (getNode s m).parent = some p)
    (hnext : (getNode s p).next = some m)
    (hvm : ¬ s.cursor = m)
    (hplen : p < s.nodes.length)
    (hpm : ¬ p = m)
    (hmnotvars : m ∉ (getNode s p).vars)
    (hnodup : ((getNode s p).vars).Nodup)
    (hvin : s.cursor ∈ (getNode s p).vars) :
    (getNode (promoteVariation (gotoNode (promoteVariation s) m)) p).next
        = some m ∧
    (getNode (promoteVariation (gotoNode (promoteVariation s) m)) p).vars
        = s.cursor :: (getNode s p).vars.filter (fun v => v ≠ s.cursor) ∧
    ((getNode (promoteVariation (gotoNode (promoteVariation s) m))
        p).vars).Perm (getNode s p).vars := by
  have hv1 : ¬ (getNode s p).next = some s.cursor := by
    rw [hnext]
    intro hq
    injection hq with hq2
    exact hvm hq2.symm
  have hs1 := promoteVariation_eq hvp hv1
  have hn1 : getNode (promoteVariation s) p =
      { getNode s p with
        vars := m :: (getNode s p).vars.filter (fun v => v ≠ s.cursor),
        next := some s.cursor } := by
    rw [hs1]
    simp only [getNode_withCursor]
    rw [getNode_updNode, if_pos ⟨rfl, hplen⟩]
    simp only [hnext]
  have hframe : ∀ k, ¬ p = k →
      getNode (promoteVariation s) k = getNode s k := by
    intro k hk
    rw [hs1]
    simp only [getNode_withCursor]
    rw [getNode_updNode, if_neg (fun hh => hk hh.1)]
  have hglen : (promoteVariation s).nodes.length = s.nodes.length := by
    rw [hs1]
    simp only [length_updNode]
  have hcur2 : (gotoNode (promoteVariation s) m).cursor = m := rfl
  have hvp2 : (getNode (gotoNode (promoteVariation s) m)
      (gotoNode (promoteVariation s) m).cursor).parent = some p := by
    rw [hcur2, getNode_gotoNode, hframe m hpm]
    exact hmp
  have hv2 : ¬ (getNode (gotoNode (promoteVariation s) m) p).next =
      some (gotoNode (promoteVariation s) m).cursor := by
    rw [hcur2, getNode_gotoNode, hn1]
    intro hq
    simp only at hq
    injection hq with hq2
    exact hvm hq2
  have hs2 := promoteVariation_eq hvp2 hv2
  rw [hs2]
  simp only [getNode_withCursor]
  rw [getNode_updNode, if_pos ⟨rfl, by
    show p < (gotoNode (promoteVariation s) m).nodes.length
    have : (gotoNode (promoteVariation s) m).nodes.length =
        (promoteVariation s).nodes.length := rfl
    rw [this, hglen]
    exact hplen⟩]
  rw [hcur2, getNode_gotoNode, hn1]
  simp only
  have hfilts : (((getNode s p).vars.filter
      (fun v => v ≠ s.cursor)).filter (fun v => v ≠ m)) =
      (getNode s p).vars.filter (fun v => v ≠ s.cursor) := by
    apply List.filter_eq_self.mpr
    intro a ha
    have hal : a ∈ (getNode s p).vars := List.mem_of_mem_filter ha
    exact decide_eq_true (fun he => hmnotvars (he ▸ hal))
  rw [List.filter_cons_of_neg (by simp)]
  rw [hfilts]
  refine ⟨trivial, rfl, ?_⟩
  exact (perm_cons_filter_ne (getNode s p).vars s.cursor hnodup hvin).symm

/-- Witness for the amended C4: the `1.e4 (1.d4) (1.c4)` round trip on
node 3 then node 1 lands on `next = 1`, `vars = [3, 2]`, a permutation
of the original `[2, 3]`. -/
theorem c4_amended_roundtrip_witness :
    (getNode (promoteVariation (gotoNode (promoteVariation exTwoVars) 1))
        0).next = some 1 ∧
    (getNode (promoteVariation (gotoNode (promoteVariation exTwoVars) 1))
        0).vars = exTwoVars.cursor ::
        (getNode exTwoVars 0).vars.filter (fun v => v ≠ exTwoVars.cursor) ∧
    ((getNode (promoteVariation (gotoNode (promoteVariation exTwoVars) 1))
        0).vars).Perm (getNode exTwoVars 0).vars :=
  c4_amended_roundtrip exTwoVars 0 1 (by decide) (by decide) (by decide)
    (by decide) (by decide) (by decide) (by decide) (by decide) (by decide)

/-- Claim C5: for every variation node `v` (the cursor) with parent `p`,
`deleteVariation` removes `v` (and hence its whole subtree) from
`p.variations`, moves the cursor to `p`, and leaves every other sibling
variation of `p`, `p.mainlineNext`, and every other node of the tree
unchanged. -/
theorem c5_delete_is_subtree_exclusive (s : TreeState) (p : Nat)
    (hvp : (getNode s s.cursor).parent = some p)
    (hv : ¬ (getNode s p).next = some s.cursor)
    (hplen : p < s.nodes.length) :
    (getNode (deleteVariation s) p).vars =
      (getNode s p).vars.filter (fun v => v ≠ s.cursor) ∧
    s.cursor ∉ (getNode (deleteVariation s) p).vars ∧
    (getNode (deleteVariation s) p).next = (getNode s p).next ∧
    (getNode (deleteVariation s) p).parent = (getNode s p).parent ∧
    (getNode (deleteVariation s) p).comment = (getNode s p).comment ∧
    (getNode (deleteVariation s) p).san = (getNode s p).san ∧
    (getNode (deleteVariation s) p).fen = (getNode s p).fen ∧
    (getNode (deleteVariation s) p).id = (getNode s p).id ∧
    (∀ k, ¬ k = p → getNode (deleteVariation s) k = getNode s k) ∧
    (deleteVariation s).nodes.length = s.nodes.length ∧
    (deleteVariation s).cursor = p := by
  have hs1 := deleteVariation_eq hvp hv
  have hself : getNode (deleteVariation s) p =
      { getNode s p with
        vars := (getNode s p).vars.filter (fun v => v ≠ s.cursor) } := by
    rw [hs1]
    simp only [getNode_withCursor]
    rw [getNode_updNode, if_pos ⟨rfl, hplen⟩]
  refine ⟨by rw [hself], ?_, by rw [hself], by rw [hself], by rw [hself],
    by rw [hself], by rw [hself], by rw [hself], ?_, ?_, ?_⟩
  · rw [hself]
    simp only
    intro hmem
    have := List.of_mem_filter hmem
    simp at this
  · intro k hk
    rw [hs1]
    simp only [getNode_withCursor]
    rw [getNode_updNode, if_neg (fun hh => hk hh.1.symm)]
  · rw [hs1]
    simp only [length_updNode]
  · rw [hs1]

/-- Witness for C5: deleting the variation node 2 of `1.e4 (1.d4)`
empties the root's `vars`, keeps `next = 1`, and moves the cursor to
the root. -/
theorem c5_delete_is_subtree_exclusive_witness :
    (getNode (deleteVariation exVar) 0).vars = [] ∧
    (getNode (deleteVariation exVar) 0).next = some 1 ∧
    (deleteVariation exVar).cursor = 0 := by
  have h := c5_delete_is_subtree_exclusive exVar 0 (by decide) (by decide)
    (by decide)
  refine ⟨?_, ?_, h.2.2.2.2.2.2.2.2.2.2⟩
  · rw [h.1]; decide
  · rw [h.2.2.1]; decide

/-- Claim C6: at the root, `prev` is a no-op (state unchanged); at the
mainline tip, `next` is a no-op; and `end` puts the cursor on the node
reached by following `mainlineNext` links from the root until null —
a node whose `mainlineNext` is null. -/
theorem c6_navigation_boundedness (s : TreeState) (h : Reachable s) :
    (s.cursor = 0 → navPrev s = s) ∧
    ((getNode s s.cursor).next = none → navNext s = s) ∧
    (navEnd s).cursor = follow s s.nodes.length 0 ∧
    (getNode (navEnd s) (navEnd s).cursor).next = none := by
  obtain ⟨h1, h2, h3, h4⟩ := inv_reachable h
  refine ⟨?_, ?_, rfl, ?_⟩
  · intro hc
    unfold navPrev
    rw [hc, h3]
  · intro hn
    unfold navNext
    rw [hn]
  · have hb : ∀ k j, (getNode s k).next = some j →
        k < j ∧ j < s.nodes.length := by
      intro k j hkj
      by_cases hk : k < s.nodes.length
      · exact (h4 k hk).2.1 j hkj
      · exfalso
        have hdef : getNode s k = defaultNode := by
          simp [getNode, List.getElem?_eq_none (Nat.le_of_not_lt hk)]
        rw [hdef] at hkj
        cases hkj
    have key : ∀ f i, s.nodes.length ≤ i + f →
        (getNode s (follow s f i)).next = none := by
      intro f
      induction f with
      | zero =>
        intro i hi
        simp only [follow]
        simp [getNode,
          List.getElem?_eq_none (by omega : s.nodes.length ≤ i),
          defaultNode]
      | succ f ih =>
        intro i hi
        rcases hx : (getNode s i).next with _ | j
        · simp only [follow]
          rw [hx]
          exact hx
        · have hj := hb i j hx
          simp only [follow]
          rw [hx]
          exact ih j (by omega)
    exact key s.nodes.length 0 (by omega)

/-- Witness for C6: on the fresh viewer `prev` is a no-op; after `1.e4`
with the cursor on the tip, `next` is a no-op and `end` lands on a node
with no `next`. -/
theorem c6_navigation_boundedness_witness :
    navPrev initState = initState ∧
    navNext exBase = exBase ∧
    (getNode (navEnd exBase) (navEnd exBase).cursor).next = none := by
  have h0 := c6_navigation_boundedness initState Reachable.init
  have h1 := c6_navigation_boundedness exBase reachable_exBase
  exact ⟨h0.1 rfl, h1.2.1 (by decide), h1.2.2.2⟩

theorem getNode_id_updNode (s : TreeState) (i : Nat) (f : Node → Node)
    (hf : ∀ x, (f x).id = x.id) (k : Nat) :
    (getNode (updNode s i f) k).id = (getNode s k).id := by
  rw [getNode_updNode]
  by_cases he : i = k ∧ i < s.nodes.length
  · rw [if_pos he, hf, he.1]
  · rw [if_neg he]

theorem step_preserves_ids {s s2 : TreeState} (hstep : Step s s2)
    (hc : s.cursor < s.nodes.length) (k : Nat)
    (hk : k < s.nodes.length) :
    (getNode s2 k).id = (getNode s k).id := by
  cases hstep with
  | applyMoveS san fen t =>
    rcases hn : (getNode s s.cursor).next with _ | j
    · rw [applyMove_extend_eq san fen t hn,
        getNode_createState san fen _ hc,
        if_neg (by omega : ¬ k = s.nodes.length)]
      by_cases hkc : k = s.cursor
      · rw [if_pos hkc, hkc]
      · rw [if_neg hkc]
    · by_cases hs : (getNode s j).san = some san
      · rw [applyMove_replay fen t hn hs]
        simp only [getNode_withCursor]
        refine getNode_id_updNode s j _ ?_ k
        intro x
        rfl
      · by_cases ht : t = "w"
        · rw [applyMove_promoteCase_eq fen hn hs ht,
            getNode_createState san fen _ hc,
            if_neg (by omega : ¬ k = s.nodes.length)]
          by_cases hkc : k = s.cursor
          · rw [if_pos hkc, hkc]
          · rw [if_neg hkc]
        · rw [applyMove_appendCase_eq fen hn hs ht,
            getNode_createState san fen _ hc,
            if_neg (by omega : ¬ k = s.nodes.length)]
          by_cases hkc : k = s.cursor
          · rw [if_pos hkc, hkc]
          · rw [if_neg hkc]
  | promoteS =>
    simp only [promoteVariation]
    split
    · split
      · simp only [getNode_withCursor]
        refine getNode_id_updNode s _ _ ?_ k
        intro x
        rfl
      · rfl
    · rfl
  | deleteS =>
    simp only [deleteVariation]
    split
    · split
      · simp only [getNode_withCursor]
        refine getNode_id_updNode s _ _ ?_ k
        intro x
        rfl
      · rfl
    · rfl
  | startS => rfl
  | endS => rfl
  | prevS =>
    unfold navPrev
    split
    · rfl
    · rfl
  | nextS =>
    unfold navNext
    split
    · rfl
    · rfl
  | gotoS i hi => rfl
  | commentS t =>
    unfold setCommentClick
    split
    · rfl
    · refine getNode_id_updNode s _ _ ?_ k
      intro x
      rfl

/-- Claim C9: every node (root included) receives its id at creation
from the strictly increasing counter (`id = index + 1`, counter one past
the arena), so distinct nodes always carry distinct ids, and no
operation changes the id of an existing node. -/
theorem c9_ids_unique_and_immutable (s : TreeState) (h : Reachable s) :
    s.nextId = s.nodes.length + 1 ∧
    (∀ k, k < s.nodes.length → (getNode s k).id = k + 1) ∧
    (∀ k l, k < s.nodes.length → l < s.nodes.length → ¬ k = l →
      ¬ (getNode s k).id = (getNode s l).id) ∧
    (∀ s2, Step s s2 → ∀ k, k < s.nodes.length →
      (getNode s2 k).id = (getNode s k).id) := by
  obtain ⟨h1, h2, h3, h4⟩ := inv_reachable h
  refine ⟨h1, fun k hk => (h4 k hk).1, ?_, ?_⟩
  · intro k l hk hl hkl
    rw [(h4 k hk).1, (h4 l hl).1]
    omega
  · intro s2 hstep k hk
    exact step_preserves_ids hstep h2 k hk

/-- Witness for C9: after `1.e4` the two nodes carry the distinct ids
1 and 2, and playing `1...e5` leaves both unchanged. -/
theorem c9_ids_unique_and_immutable_witness :
    ¬ (getNode exBase 0).id = (getNode exBase 1).id ∧
    (getNode (applyMove exBase "e5" "fenE5" "w") 0).id =
      (getNode exBase 0).id := by
  have h := c9_ids_unique_and_immutable exBase reachable_exBase
  exact ⟨h.2.2.1 0 1 (by decide) (by decide) (by decide),
    h.2.2.2 _ (Step.applyMoveS _ _ _ _) 0 (by decide)⟩

theorem renderGo_varsGo_none (st : TreeState) (f : Nat) (v : Nat)
    (rest : List Nat) (m : Nat) (sd : String)
    (h : renderGo st f (RCall.seq (some v) m sd (decide (sd = "w"))) = none) :
    renderGo st (f + 1) (RCall.varsGo (v :: rest) m sd) = none := by
  simp only [renderGo]
  rw [h]
  rfl

theorem renderGo_seqW_none (st : TreeState) (f : Nat) (i m : Nat)
    (sup : Bool)
    (h : renderGo st f (RCall.vars (getNode st i).parent m "w") = none) :
    renderGo st (f + 1) (RCall.seq (some i) m "w" sup) = none := by
  simp only [renderGo, if_true]
  rw [h]
  rfl

theorem renderGo_vars_none (st : TreeState) (f : Nat) (p m : Nat)
    (sd : String)
    (h : renderGo st f (RCall.varsGo (getNode st p).vars m sd) = none) :
    renderGo st (f + 1) (RCall.vars (some p) m sd) = none := by
  simp only [renderGo]
  exact h

/-- On the tree `1.e4 (1.d4)` the `renderVars` entry for the root never
returns, whatever the fuel: rendering the variation's first node `d4`
re-enters `renderVars` on the same parent. -/
theorem exVar_renderVars_none :
    ∀ g, renderGo exVar g (RCall.vars (some 0) 1 "w") = none := by
  intro g
  induction g using Nat.strong_induction_on with
  | _ g ih =>
    match g, ih with
    | 0, _ => rfl
    | 1, _ => rfl
    | 2, _ => rfl
    | g3 + 3, ih =>
      have h1 := ih g3 (by omega)
      have h2 : renderGo exVar (g3 + 1)
          (RCall.seq (some 2) 1 "w" (decide ("w" = "w"))) = none := by
        apply renderGo_seqW_none
        exact h1
      have h3 : renderGo exVar (g3 + 2) (RCall.varsGo [2] 1 "w") = none :=
        renderGo_varsGo_none exVar (g3 + 1) 2 [] 1 "w" h2
      apply renderGo_vars_none
      exact h3

/-- Claim C7 (code bug): on the reachable tree `1.e4 (1.d4)` — the root
has `next = 1` and one variation `vars = [2]` — `render()` exhausts any
amount of fuel: the mutual `renderSeq`/`renderVars` recursion never
terminates once a variation exists, because `renderSeq` at a
variation's first node calls `renderVars` on that node's parent again.
No parenthesized variation group (prefix `"(N."`/`"(N..."`, trimmed,
closed) is ever emitted. -/
theorem c7_render_diverges_on_variation :
    (getNode exVar 0).vars = [2] ∧
    (getNode exVar 0).next = some 1 ∧
    ∀ fuel, render exVar fuel = none := by
  refine ⟨rfl, rfl, ?_⟩
  intro fuel
  match fuel with
  | 0 => rfl
  | f + 1 =>
    show renderGo exVar (f + 1) (RCall.seq (some 1) 1 "w" false) = none
    apply renderGo_seqW_none
    exact exVar_renderVars_none f

/-- Counterexample to claim C8: on the mainline `1.e4 {c} e5` the Black
move token `e5` (node 2) directly follows the comment span, yet the
only text nodes in the whole output are `"1. "` and two spaces — no
`"1..."` number precedes it. -/
theorem c8_counterexample :
    render exC8 10 = some [Item.text "1. ", Item.move 1 false "e4",
      Item.text " ", Item.comm "\x7bc\x7d ", Item.move 2 true "e5",
      Item.text " "] ∧
    textsOfList [Item.text "1. ", Item.move 1 false "e4", Item.text " ",
      Item.comm "\x7bc\x7d ", Item.move 2 true "e5", Item.text " "] =
      ["1. ", " ", " "] := by
  exact ⟨rfl, rfl⟩

theorem string_mk_data (s : String) : String.mk s.data = s := rfl

theorem stripTrailWS_append_space (s : String) :
    stripTrailWS (s ++ " ") = stripTrailWS s := by
  unfold stripTrailWS
  congr 1
  have hrev : (s ++ " ").data.reverse = ' ' :: s.data.reverse := by
    rw [String.data_append]
    simp
  rw [hrev, List.dropWhile_cons_of_pos (by decide)]

theorem stripTrailWS_last_not_ws (s : String) (l : List Char) (c : Char)
    (hdata : s.data = l ++ [c]) (hc : ¬ c.isWhitespace = true) :
    stripTrailWS s = s := by
  unfold stripTrailWS
  rw [hdata]
  rw [List.reverse_append]
  simp only [List.reverse_singleton, List.singleton_append]
  rw [List.dropWhile_cons_of_neg hc]
  rw [List.reverse_cons, List.reverse_reverse, ← hdata]

theorem strip_dot (s : String) : stripTrailWS (s ++ ".") = s ++ "." :=
  stripTrailWS_last_not_ws _ s.data '.' (by rw [String.data_append])
    (by decide)

theorem strip_paren (s : String) : stripTrailWS (s ++ ")") = s ++ ")" :=
  stripTrailWS_last_not_ws _ s.data ')' (by rw [String.data_append])
    (by decide)

theorem strip_dots (s : String) :
    stripTrailWS (s ++ "...") = s ++ "..." :=
  stripTrailWS_last_not_ws _ (s.data ++ ['.', '.']) '.'
    (by rw [String.data_append, List.append_assoc]; rfl) (by decide)

/-- The shapes a bare text node emitted by `render` can take: a White
move-number label, a variation-group prefix, a space, or a group closer
(each possibly right-trimmed).  No `"N..."` Black renumbering text ever
appears outside a `"(N..."` variation prefix. -/
def ShapeOK (t : String) : Prop :=
  ∃ m : Nat, t = toString m ++ ". " ∨ t = toString m ++ "." ∨
    t = "(" ++ toString m ++ "." ∨ t = "(" ++ toString m ++ "... " ∨
    t = "(" ++ toString m ++ "..." ∨ t = " " ∨ t = ") " ∨ t = ")"

theorem shapeOK_strip {t : String} (h : ShapeOK t) :
    stripTrailWS t = "" ∨ ShapeOK (stripTrailWS t) := by
  obtain ⟨m, h⟩ := h
  rcases h with h | h | h | h | h | h | h | h
  · right
    subst h
    have e1 : toString m ++ ". " = (toString m ++ ".") ++ " " := by
      rw [String.append_assoc]
      rfl
    rw [e1, stripTrailWS_append_space, strip_dot]
    exact ⟨m, Or.inr (Or.inl rfl)⟩
  · right
    subst h
    rw [strip_dot]
    exact ⟨m, Or.inr (Or.inl rfl)⟩
  · right
    subst h
    rw [show ("(" ++ toString m ++ "." : String) =
      ("(" ++ toString m) ++ "." from rfl, strip_dot]
    exact ⟨m, Or.inr (Or.inr (Or.inl rfl))⟩
  · right
    subst h
    have hdots : stripTrailWS ("(" ++ toString m ++ "...") =
        "(" ++ toString m ++ "..." := strip_dots ("(" ++ toString m)
    have e1 : "(" ++ toString m ++ "... " =
        ("(" ++ toString m ++ "...") ++ " " := by
      simp only [String.append_assoc]
      rfl
    rw [e1, stripTrailWS_append_space, hdots]
    exact ⟨m, Or.inr (Or.inr (Or.inr (Or.inr (Or.inl rfl))))⟩
  · right
    subst h
    have hdots : stripTrailWS ("(" ++ toString m ++ "...") =
        "(" ++ toString m ++ "..." := strip_dots ("(" ++ toString m)
    rw [hdots]
    exact ⟨m, Or.inr (Or.inr (Or.inr (Or.inr (Or.inl rfl))))⟩
  · left
    subst h
    rfl
  · right
    subst h
    rw [show (") " : String) = ")" ++ " " from rfl,
      stripTrailWS_append_space,
      show (")" : String) = "" ++ ")" from rfl, strip_paren]
    exact ⟨m, Or.inr (Or.inr (Or.inr (Or.inr (Or.inr (Or.inr
      (Or.inr rfl))))))⟩
  · right
    subst h
    rw [show (")" : String) = "" ++ ")" from rfl, strip_paren]
    exact ⟨m, Or.inr (Or.inr (Or.inr (Or.inr (Or.inr (Or.inr
      (Or.inr rfl))))))⟩

theorem textsOfList_append (l1 l2 : List Item) :
    textsOfList (l1 ++ l2) = textsOfList l1 ++ textsOfList l2 := by
  induction l1 with
  | nil => rfl
  | cons x xs ih =>
    simp only [List.cons_append, textsOfList, List.append_eq, ih,
      List.append_assoc]

theorem textsOf_trimLast (l : List Item) (t : String)
    (ht : t ∈ textsOfList (trimLast l)) :
    ∃ u, u ∈ textsOfList l ∧
      (t = u ∨ (t = stripTrailWS u ∧ ¬ stripTrailWS u = "")) := by
  induction l with
  | nil =>
    simp only [trimLast, textsOfList] at ht
    cases ht
  | cons x xs ih =>
    match xs with
    | [] =>
      match x with
      | Item.text s =>
        simp only [trimLast] at ht
        by_cases hstrip : stripTrailWS s = ""
        · rw [if_pos hstrip] at ht
          simp only [textsOfList] at ht
          cases ht
        · rw [if_neg hstrip] at ht
          simp only [textsOfList, textsOfItem, List.append_nil] at ht
          rcases List.mem_singleton.mp ht with rfl
          refine ⟨s, ?_, Or.inr ⟨rfl, hstrip⟩⟩
          simp [textsOfList, textsOfItem]
      | Item.move a b c =>
        simp only [trimLast, textsOfList, textsOfItem] at ht
        cases ht
      | Item.comm a =>
        simp only [trimLast, textsOfList, textsOfItem] at ht
        cases ht
      | Item.varSpan ch =>
        simp only [trimLast, textsOfList, textsOfItem,
          List.append_nil] at ht
        exact ⟨t, by simp [textsOfList, textsOfItem, ht], Or.inl rfl⟩
    | y :: ys =>
      have htrim : trimLast (x :: y :: ys) = x :: trimLast (y :: ys) := by
        match x with
        | Item.text s => rfl
        | Item.move a b c => rfl
        | Item.comm a => rfl
        | Item.varSpan ch => rfl
      rw [htrim] at ht
      simp only [textsOfList] at ht
      rcases List.mem_append.mp ht with h5 | h5
      · exact ⟨t, by simp [textsOfList, List.mem_append, h5], Or.inl rfl⟩
      · rcases ih h5 with ⟨u, hu, hd⟩
        refine ⟨u, ?_, hd⟩
        simp only [textsOfList, List.mem_append] at hu ⊢
        exact Or.inr hu

/-- Claim C8 as amended: `render` never numbers a Black mainline move —
after a comment or variation interruption or not.  Every bare text node
in any successful render is a White move-number label `"N. "`, a
variation-group prefix `"(N."`/`"(N... "`, a space, or a group closer
`") "` (each possibly right-trimmed); in particular the only texts
containing `"..."` are the `"(N..."` variation prefixes. -/
theorem c8_amended_black_moves_never_numbered :
    ∀ (fuel : Nat) (st : TreeState) (c : RCall) (out : List Item),
      renderGo st fuel c = some out →
      ∀ t, t ∈ textsOfList out → ShapeOK t := by
  intro fuel
  induction fuel with
  | zero =>
    intro st c out h
    cases h
  | succ f ih =>
    intro st c out h t ht
    match c with
    | RCall.seq none m sd sup =>
      simp only [renderGo] at h
      injection h with h2
      subst h2
      cases ht
    | RCall.seq (some i) m sd sup =>
      simp only [renderGo] at h
      by_cases hsd : sd = "w"
      · rw [if_pos hsd] at h
        rcases Option.bind_eq_some.mp h with ⟨vs, hvs, h2⟩
        rcases Option.bind_eq_some.mp h2 with ⟨rest, hrest, h3⟩
        injection h3 with h4
        subst h4
        rw [textsOfList_append] at ht
        rcases List.mem_append.mp ht with h5 | h5
        · by_cases hsup : sup = true
          · rw [if_pos hsup] at h5
            simp only [textsOfList] at h5
            cases h5
          · rw [if_neg hsup] at h5
            simp only [textsOfList, textsOfItem, List.append_nil] at h5
            rcases List.mem_singleton.mp h5 with rfl
            exact ⟨m, Or.inl rfl⟩
        · simp only [textsOfList, textsOfItem, List.nil_append] at h5
          rcases List.mem_cons.mp h5 with h6 | h6
          · subst h6
            exact ⟨0, by simp⟩
          · rw [textsOfList_append, textsOfList_append] at h6
            simp only [List.append_eq, List.nil_append] at h6
            rcases List.mem_append.mp h6 with h7 | h8
            · rcases List.mem_append.mp h7 with h9 | h9
              · by_cases hcm : (getNode st i).comment = ""
                · rw [if_pos hcm] at h9
                  simp only [textsOfList] at h9
                  cases h9
                · rw [if_neg hcm] at h9
                  simp only [textsOfList, textsOfItem,
                    List.append_nil] at h9
                  cases h9
              · exact ih st _ vs hvs t h9
            · exact ih st _ rest hrest t h8
      · rw [if_neg hsd] at h
        rcases Option.bind_eq_some.mp h with ⟨vs, hvs, h2⟩
        rcases Option.bind_eq_some.mp h2 with ⟨rest, hrest, h3⟩
        injection h3 with h4
        subst h4
        simp only [textsOfList, textsOfItem, List.nil_append] at ht
        rcases List.mem_cons.mp ht with h6 | h6
        · subst h6
          exact ⟨0, by simp⟩
        · rw [textsOfList_append, textsOfList_append] at h6
          simp only [List.append_eq, List.nil_append] at h6
          rcases List.mem_append.mp h6 with h7 | h8
          · rcases List.mem_append.mp h7 with h9 | h9
            · by_cases hcm : (getNode st i).comment = ""
              · rw [if_pos hcm] at h9
                simp only [textsOfList] at h9
                cases h9
              · rw [if_neg hcm] at h9
                simp only [textsOfList, textsOfItem,
                  List.append_nil] at h9
                cases h9
            · exact ih st _ vs hvs t h9
          · exact ih st _ rest hrest t h8
    | RCall.vars none m sd =>
      simp only [renderGo] at h
      injection h with h2
      subst h2
      cases ht
    | RCall.vars (some p) m sd =>
      simp only [renderGo] at h
      exact ih st _ out h t ht
    | RCall.varsGo [] m sd =>
      simp only [renderGo] at h
      injection h with h2
      subst h2
      cases ht
    | RCall.varsGo (v :: rest) m sd =>
      simp only [renderGo] at h
      rcases Option.bind_eq_some.mp h with ⟨inner, hinner, h2⟩
      rcases Option.bind_eq_some.mp h2 with ⟨more, hmore, h3⟩
      injection h3 with h4
      subst h4
      simp only [textsOfList, textsOfItem] at ht
      rcases List.mem_append.mp ht with h5 | h5
      · rw [textsOfList_append] at h5
        rcases List.mem_append.mp h5 with h6 | h6
        · rcases textsOf_trimLast _ _ h6 with ⟨u, hu, hd⟩
          have hU : ShapeOK u := by
            simp only [textsOfList, textsOfItem, List.singleton_append] at hu
            rcases List.mem_cons.mp hu with h7 | h7
            · subst h7
              by_cases hsd : sd = "w"
              · rw [if_pos hsd]
                exact ⟨m, Or.inr (Or.inr (Or.inl rfl))⟩
              · rw [if_neg hsd]
                exact ⟨m, Or.inr (Or.inr (Or.inr (Or.inl rfl)))⟩
            · exact ih st _ inner hinner u h7
          rcases hd with hd | hd
          · rw [hd]
            exact hU
          · rcases shapeOK_strip hU with hempty | hs2
            · exact absurd hempty hd.2
            · rw [hd.1]
              exact hs2
        · simp only [textsOfList, textsOfItem, List.append_nil] at h6
          rcases List.mem_singleton.mp h6 with rfl
          exact ⟨0, by simp⟩
      · exact ih st _ more hmore t h5

/-- Witness for the amended C8: the space text emitted while rendering
`1.e4 {c} e5` is one of the allowed shapes. -/
theorem c8_amended_black_moves_never_numbered_witness : ShapeOK " " :=
  c8_amended_black_moves_never_numbered 10 exC8
    (RCall.seq (some 1) 1 "w" false)
    [Item.text "1. ", Item.move 1 false "e4", Item.text " ",
      Item.comm "\x7bc\x7d ", Item.move 2 true "e5", Item.text " "]
    rfl " " (by decide)

end JekyllChess
